import Mathlib

/-
Verification of the interactive review-and-edit console of the smart-commit
repository (src/smart_commit/ui/console.py and src/smart_commit/core.py).

Python strings are modelled as lists of natural-number character codes
(`List Nat`), so that cursor splicing (`s[:i] + c + s[i:]`) becomes
`List.take`/`List.drop` concatenation.  The blocking byte source
(`_get_char`) is modelled by threading an explicit list of pending input
bytes through each loop; a loop that would block on `_get_char` with no
bytes left reports a `pending`/`blocked` outcome carrying its current
state instead.  Exception handlers (`except KeyboardInterrupt`) return the
same values as the corresponding byte branches and are folded into them.
-/

/-- One proposed atomic commit: a `{"file_path": ..., "message": ...}` dict
entry of the `proposed_commits` list handed to the console. -/
structure Proposal where
  file_path : List Nat
  message : List Nat
deriving DecidableEq, Repr, Inhabited

/-- Result of one run of the inner loop of
`SmartCommitConsole._inline_edit_commit_message` (console.py lines 229-265):
`returned r` models the Python function returning `r` (where `none` is
Python's `None` and `some m` the edited string `m`); `pending buf pos`
models the loop blocking in `_get_char` with the shown editing state;
`pendingEsc buf pos` models blocking while reading the byte that follows an
escape byte. -/
inductive EditEnd where
  | returned : Option (List Nat) → EditEnd
  | pending : List Nat → Nat → EditEnd
  | pendingEsc : List Nat → Nat → EditEnd
deriving DecidableEq, Repr

/-- The `while True` loop of `_inline_edit_commit_message` (console.py
lines 235-265).  Arguments: remaining input bytes, `current_message`
(captured once at entry and never changed), `editing_message`, and
`cursor_pos`.  Branches, in source order:
`'\r'`/`'\n'` (13/10) returns `editing_message` if it differs from
`current_message` else `None`; `'\x1b'` (27) reads one further byte and,
since `_get_char` always yields exactly one character, always takes the
`len(char) == 2` branch and returns `None`; `'\x7f'`/`'\b'` (127/8) deletes
the character before the cursor when `cursor_pos > 0`; `'\x03'` (3) returns
`None`; any single character with code point at least 32 is inserted at the
cursor; every other byte falls through all branches and the loop
continues. -/
def inlineEditRun : List Nat → List Nat → List Nat → Nat → EditEnd × List Nat
  | [], _, buf, pos => (.pending buf pos, [])
  | k :: rest, cur, buf, pos =>
    if k = 13 ∨ k = 10 then
      (.returned (if buf ≠ cur then some buf else none), rest)
    else if k = 27 then
      match rest with
      | [] => (.pendingEsc buf pos, [])
      | _ :: rest2 => (.returned none, rest2)
    else if k = 127 ∨ k = 8 then
      if 0 < pos then inlineEditRun rest cur (buf.take (pos - 1) ++ buf.drop pos) (pos - 1)
      else inlineEditRun rest cur buf pos
    else if k = 3 then
      (.returned none, rest)
    else if 32 ≤ k then
      inlineEditRun rest cur (buf.take pos ++ k :: buf.drop pos) (pos + 1)
    else
      inlineEditRun rest cur buf pos

/-- Entry of `_inline_edit_commit_message` (console.py lines 229-234):
`current_message = commits[edit_index]["message"]`,
`editing_message = current_message`, `cursor_pos = len(current_message)`,
then the loop.  The `current_index` parameter of the Python function only
selects the highlighted display row and does not affect the result, so it
is not a parameter here. -/
def inline_edit_commit_message (commits : List Proposal) (edit_index : Nat)
    (keys : List Nat) : EditEnd × List Nat :=
  let cur := (commits.getD edit_index default).message
  inlineEditRun keys cur cur cur.length

/-- The caller-side update in `CoreApp._handle_atomic_commits_approval`
(core.py lines 501-502): `if new_message:` followed by
`proposed_commits[index]["message"] = new_message`.  Python truthiness
makes both `None` and the empty string fall through the `if`. -/
def applyEdit (commits : List Proposal) (index : Nat)
    (new_message : Option (List Nat)) : List Proposal :=
  match new_message with
  | some m =>
      if m ≠ [] then
        commits.set index { commits.getD index default with message := m }
      else commits
  | none => commits

/-- One edit round as the caller runs it (core.py lines 498-502): run the
inline editor, then apply its returned value.  When the editor blocks
waiting for input it never returns to the caller, so nothing is applied. -/
def handleEditRound (commits : List Proposal) (index : Nat)
    (keys : List Nat) : List Proposal :=
  match inline_edit_commit_message commits index keys with
  | (.returned r, _) => applyEdit commits index r
  | (_, _) => commits

/-- The display-list construction of `_display_table_with_inline_editing`
(console.py lines 267-276): `display_commits = commits.copy()`, then the
edited row is replaced by a copy whose message shows `editing_message` with
the cursor glyph (U+258B, code 9611) inserted at `cursor_pos`. -/
def display_commits (commits : List Proposal) (editing_index : Nat)
    (editing_message : List Nat) (cursor_pos : Nat) : List Proposal :=
  commits.set editing_index
    { commits.getD editing_index default with
      message := editing_message.take cursor_pos ++ 9611 :: editing_message.drop cursor_pos }

/-- Result of the `while True` loop of
`interactive_atomic_commits_approval` (console.py lines 348-395): the
`(action, index)` tuples `("edit", selected_index)`, `("approve", -1)` and
`("cancel", -1)`, plus `blocked i` for the loop waiting in `_get_char` with
`selected_index = i` and no input bytes left. -/
inductive BrowseRes where
  | edit : Nat → BrowseRes
  | approve : BrowseRes
  | cancel : BrowseRes
  | blocked : Nat → BrowseRes
deriving DecidableEq, Repr

/-- The Browse loop of `interactive_atomic_commits_approval` (console.py
lines 348-395) over `commit_count = n` proposals.  Branches, in source
order: `'\x1b'` (27) reads two further bytes; `'\x1b[A'` sets
`selected_index = max(0, selected_index - 1)` (truncated subtraction on
`Nat`), `'\x1b[B'` sets `selected_index = min(commit_count - 1,
selected_index + 1)`, any other escape sequence falls through every branch
and the loop continues; `'\r'`/`'\n'` (13/10) returns
`("edit", selected_index)`; `'\t'` (9) reads one further byte and returns
`("approve", -1)` if it is Enter, otherwise redraws and continues (the
read byte is consumed); a byte whose lowercase form is `'c'` (99 or 67)
returns `("cancel", -1)`; `'\x03'` (3) returns `("cancel", -1)`; anything
else is ignored.  The throttle only skips redraws and never changes
`selected_index`. -/
def browseRun (n : Nat) : List Nat → Nat → BrowseRes × List Nat
  | [], i => (.blocked i, [])
  | k :: rest, i =>
    if k = 27 then
      match rest with
      | a :: b :: rest2 =>
        if a = 91 ∧ b = 65 then browseRun n rest2 (i - 1)
        else if a = 91 ∧ b = 66 then browseRun n rest2 (min (n - 1) (i + 1))
        else browseRun n rest2 i
      | _ => (.blocked i, [])
    else if k = 13 ∨ k = 10 then (.edit i, rest)
    else if k = 9 then
      match rest with
      | [] => (.blocked i, [])
      | k2 :: rest2 =>
        if k2 = 13 ∨ k2 = 10 then (.approve, rest2) else browseRun n rest2 i
    else if k = 99 ∨ k = 67 then (.cancel, rest)
    else if k = 3 then (.cancel, rest)
    else browseRun n rest i

/-- Terminal outcome of `CoreApp._handle_atomic_commits_approval` (core.py
lines 482-505): `approved l` models `return proposed_commits` (with `l` the
list at that moment), `cancelled` models `return None`, and `stuck` models
the loop blocking on input (or being cut off by the fuel bound), carrying
the proposals and `current_index` at that point. -/
inductive SessionOut where
  | approved : List Proposal → SessionOut
  | cancelled : SessionOut
  | stuck : List Proposal → Nat → SessionOut
deriving DecidableEq, Repr

/-- The `while True` loop of `_handle_atomic_commits_approval` (core.py
lines 486-505), fueled by the number of remaining iterations.  Each round
runs the Browse loop starting at `current_index`; `"approve"` returns the
proposals, `"cancel"` returns `None`, and `"edit"` with a valid index sets
`current_index = index`, runs the inline editor on the remaining bytes,
applies its result, and loops.  An `"edit"` action whose index fails the
`0 <= index < len(proposed_commits)` guard loops without editing. -/
def sessionRun : Nat → List Proposal → Nat → List Nat → SessionOut
  | 0, commits, idx, _ => .stuck commits idx
  | fuel + 1, commits, idx, keys =>
    match browseRun commits.length keys idx with
    | (.approve, _) => .approved commits
    | (.cancel, _) => .cancelled
    | (.blocked i, _) => .stuck commits i
    | (.edit i, rest) =>
      if i < commits.length then
        match inline_edit_commit_message commits i rest with
        | (.returned r, rest2) => sessionRun fuel (applyEdit commits i r) i rest2
        | (.pending _ _, _) => .stuck commits i
        | (.pendingEsc _ _, _) => .stuck commits i
      else sessionRun fuel commits idx rest

/-- Logical arrow-key events, decoded from the three-byte sequences
`ESC [ A` and `ESC [ B`. -/
inductive Arrow where
  | up : Arrow
  | down : Arrow
deriving DecidableEq, Repr

/-- The `selected_index` update of one arrow key in the Browse loop
(console.py lines 357-374): `max(0, selected_index - 1)` for ArrowUp
(truncated subtraction on `Nat`) and
`min(commit_count - 1, selected_index + 1)` for ArrowDown. -/
def navStep (n i : Nat) : Arrow → Nat
  | .up => i - 1
  | .down => min (n - 1) (i + 1)

/-- selected_index after a sequence of arrow keys. -/
def navFold (n i : Nat) (ds : List Arrow) : Nat :=
  ds.foldl (navStep n) i

/-- Raw bytes of one arrow key. -/
def encodeArrow : Arrow → List Nat
  | .up => [27, 91, 65]
  | .down => [27, 91, 66]

/-- Raw bytes of a sequence of arrow keys. -/
def encodeArrows (ds : List Arrow) : List Nat :=
  (ds.map encodeArrow).flatten

example : inlineEditRun [97, 13] [120] [120] 1 = (.returned (some [120, 97]), []) := by decide
example : inlineEditRun [127, 13] [120] [120] 1 = (.returned (some []), []) := by decide
example : inlineEditRun [27, 91, 65] [120] [120] 1 = (.returned none, [65]) := by decide
example : inlineEditRun [3] [120] [120] 1 = (.returned none, []) := by decide
example : browseRun 2 [27, 91, 66, 13] 0 = (.edit 1, []) := by decide
example : browseRun 2 [9, 13] 1 = (.approve, []) := by decide
example : browseRun 2 [67] 0 = (.cancel, []) := by decide
example : sessionRun 2 [⟨[97], [120]⟩] 0 [13, 3, 9, 13] = .approved [⟨[97], [120]⟩] := by decide
example : handleEditRound [⟨[97], [120]⟩] 0 [127, 13] = [⟨[97], [120]⟩] := by decide
example : handleEditRound [⟨[97], [120]⟩] 0 [97, 13] = [⟨[97], [120, 97]⟩] := by decide

/-- getD of a set list at the written index. -/
lemma getD_set_eq {α : Type} (d : α) :
    ∀ (l : List α) (i : Nat) (p : α), i < l.length → (l.set i p).getD i d = p := by
  intro l
  induction l with
  | nil => intro i p h; simp at h
  | cons x xs ih =>
    intro i p h
    cases i with
    | zero => simp [List.set, List.getD]
    | succ j =>
      simp only [List.set, List.getD_cons_succ]
      exact ih j p (by simpa using h)

/-- getD of a set list away from the written index. -/
lemma getD_set_ne {α : Type} (d : α) :
    ∀ (l : List α) (i j : Nat) (p : α), i ≠ j → (l.set i p).getD j d = l.getD j d := by
  intro l
  induction l with
  | nil => intro i j p _; simp [List.set]
  | cons x xs ih =>
    intro i j p hij
    cases i with
    | zero =>
      cases j with
      | zero => exact absurd rfl hij
      | succ j2 => simp [List.set, List.getD]
    | succ i2 =>
      cases j with
      | zero => simp [List.set, List.getD]
      | succ j2 =>
        simp only [List.set, List.getD_cons_succ]
        exact ih i2 j2 p (by omega)

/-- If the edit loop exhausts its input without returning, appending more
input makes it continue from the reached editing state. -/
lemma inlineEditRun_append (more cur : List Nat) :
    ∀ (pre buf : List Nat) (pos : Nat) (bufp : List Nat) (posp : Nat),
      inlineEditRun pre cur buf pos = (.pending bufp posp, []) →
      inlineEditRun (pre ++ more) cur buf pos = inlineEditRun more cur bufp posp := by
  intro pre
  induction pre with
  | nil =>
    intro buf pos bufp posp h
    simp only [inlineEditRun, Prod.mk.injEq, EditEnd.pending.injEq] at h
    obtain ⟨⟨h1, h2⟩, _⟩ := h
    subst h1; subst h2
    simp
  | cons k pre ih =>
    intro buf pos bufp posp h
    simp only [List.cons_append]
    simp only [inlineEditRun] at h ⊢
    by_cases h1 : k = 13 ∨ k = 10
    · simp [h1] at h
    · simp only [if_neg h1] at h ⊢
      by_cases h2 : k = 27
      · simp only [if_pos h2] at h ⊢
        cases pre with
        | nil => simp at h
        | cons x pre2 => simp at h
      · simp only [if_neg h2] at h ⊢
        by_cases h3 : k = 127 ∨ k = 8
        · simp only [if_pos h3] at h ⊢
          by_cases h4 : 0 < pos
          · simp only [if_pos h4] at h ⊢
            exact ih _ _ _ _ h
          · simp only [if_neg h4] at h ⊢
            exact ih _ _ _ _ h
        · simp only [if_neg h3] at h ⊢
          by_cases h5 : k = 3
          · simp [h5] at h
          · simp only [if_neg h5] at h ⊢
            by_cases h6 : 32 ≤ k
            · simp only [if_pos h6] at h ⊢
              exact ih _ _ _ _ h
            · simp only [if_neg h6] at h ⊢
              exact ih _ _ _ _ h

/-- Unfolding of one printable key in the edit loop. -/
lemma editStep_printable (k : Nat) (h1 : 32 ≤ k) (h2 : k ≠ 127) (rest cur buf : List Nat)
    (pos : Nat) :
    inlineEditRun (k :: rest) cur buf pos
      = inlineEditRun rest cur (buf.take pos ++ k :: buf.drop pos) (pos + 1) := by
  simp only [inlineEditRun]
  rw [if_neg (by omega : ¬(k = 13 ∨ k = 10)), if_neg (by omega : ¬k = 27),
    if_neg (by omega : ¬(k = 127 ∨ k = 8)), if_neg (by omega : ¬k = 3), if_pos h1]

/-- Unfolding of one backspace key in the edit loop when the cursor is not
at the start. -/
lemma editStep_backspace (rest cur buf : List Nat) (pos : Nat) (hpos : 0 < pos) :
    inlineEditRun (127 :: rest) cur buf pos
      = inlineEditRun rest cur (buf.take (pos - 1) ++ buf.drop pos) (pos - 1) := by
  simp [inlineEditRun, hpos]

/-- A run of printable, non-backspace bytes with the cursor at the end of
the buffer appends them in order. -/
lemma inlineEditRun_printables (more cur : List Nat) :
    ∀ (cs : List Nat), (∀ c ∈ cs, 32 ≤ c ∧ c ≠ 127) →
      ∀ buf : List Nat,
        inlineEditRun (cs ++ more) cur buf buf.length
          = inlineEditRun more cur (buf ++ cs) (buf ++ cs).length := by
  intro cs
  induction cs with
  | nil => intro _ buf; simp
  | cons c cs ih =>
    intro h buf
    obtain ⟨hc1, hc2⟩ := h c (by simp)
    rw [List.cons_append, editStep_printable c hc1 hc2]
    rw [List.take_length, List.drop_length]
    have e2 : buf.length + 1 = (buf ++ [c]).length := by simp
    rw [e2, ih (fun d hd => h d (by simp [hd])) (buf ++ [c])]
    simp

/-- A run of backspace bytes with the cursor at the end of the buffer
removes its last characters. -/
lemma inlineEditRun_backspaces (more cur : List Nat) :
    ∀ (j : Nat) (buf : List Nat), j ≤ buf.length →
      inlineEditRun (List.replicate j 127 ++ more) cur buf buf.length
        = inlineEditRun more cur (buf.take (buf.length - j)) (buf.length - j) := by
  intro j
  induction j with
  | zero => intro buf _; simp
  | succ j ih =>
    intro buf h
    rw [List.replicate_succ, List.cons_append,
      editStep_backspace (List.replicate j 127 ++ more) cur buf buf.length (by omega)]
    rw [List.drop_length, List.append_nil]
    have hlen : (buf.take (buf.length - 1)).length = buf.length - 1 := by
      rw [List.length_take]; omega
    have hIH := ih (buf.take (buf.length - 1)) (by rw [hlen]; omega)
    rw [hlen] at hIH
    rw [hIH, List.take_take]
    have e1 : min (buf.length - 1 - j) (buf.length - 1) = buf.length - (j + 1) := by omega
    have e2 : buf.length - 1 - j = buf.length - (j + 1) := by omega
    rw [e1, e2]

/-- Arrow navigation keeps `selected_index` inside `[0, n-1]`. -/
lemma navFold_lt (n : Nat) :
    ∀ (ds : List Arrow) (i : Nat), i < n → navFold n i ds < n := by
  intro ds
  induction ds with
  | nil => intro i h; simpa [navFold] using h
  | cons d ds ih =>
    intro i h
    have step : navStep n i d < n := by
      cases d <;> simp [navStep] <;> omega
    simpa [navFold] using ih (navStep n i d) step

/-- Unfolding of an ArrowUp byte sequence in the Browse loop. -/
lemma browseStep_up (n : Nat) (rest : List Nat) (i : Nat) :
    browseRun n (27 :: 91 :: 65 :: rest) i = browseRun n rest (i - 1) := by
  simp [browseRun]

/-- Unfolding of an ArrowDown byte sequence in the Browse loop. -/
lemma browseStep_down (n : Nat) (rest : List Nat) (i : Nat) :
    browseRun n (27 :: 91 :: 66 :: rest) i = browseRun n rest (min (n - 1) (i + 1)) := by
  simp [browseRun]

/-- Unfolding of an unrecognised escape sequence in the Browse loop: the
three bytes are consumed and nothing changes. -/
lemma browseStep_escOther (n a b : Nat) (rest : List Nat) (i : Nat)
    (h1 : ¬(a = 91 ∧ b = 65)) (h2 : ¬(a = 91 ∧ b = 66)) :
    browseRun n (27 :: a :: b :: rest) i = browseRun n rest i := by
  simp only [browseRun]
  simp [h1, h2]

/-- Processing the bytes of a sequence of arrow keys in the Browse loop
folds `navStep` over them. -/
lemma browseRun_arrows (n : Nat) :
    ∀ (ds : List Arrow) (i : Nat) (rest : List Nat),
      browseRun n (encodeArrows ds ++ rest) i = browseRun n rest (navFold n i ds) := by
  intro ds
  induction ds with
  | nil => intro i rest; simp [encodeArrows, navFold]
  | cons d ds ih =>
    intro i rest
    have hexp : encodeArrows (d :: ds) = encodeArrow d ++ encodeArrows ds := by
      simp [encodeArrows]
    rw [hexp, List.append_assoc]
    cases d with
    | up =>
      rw [show encodeArrow Arrow.up ++ (encodeArrows ds ++ rest)
            = 27 :: 91 :: 65 :: (encodeArrows ds ++ rest) from rfl]
      rw [browseStep_up, ih]
      simp [navFold, navStep]
    | down =>
      rw [show encodeArrow Arrow.down ++ (encodeArrows ds ++ rest)
            = 27 :: 91 :: 66 :: (encodeArrows ds ++ rest) from rfl]
      rw [browseStep_down, ih]
      simp [navFold, navStep]

/-- Decimal digits of `n`, least significant first, as ASCII codes.  The
first argument is fuel bounding the number of digits; `natDigitsRev` below
instantiates it with `n` itself, which is always enough. -/
def natDigitsRevAux : Nat → Nat → List Nat
  | 0, _ => []
  | _ + 1, 0 => []
  | fuel + 1, n + 1 => (48 + (n + 1) % 10) :: natDigitsRevAux fuel ((n + 1) / 10)

/-- Decimal digits of `n`, least significant first, as ASCII codes. -/
def natDigitsRev (n : Nat) : List Nat :=
  natDigitsRevAux n n

/-- Python's `str(k)` for a natural number `k`: its decimal digits as ASCII
codes. -/
def pyStr (k : Nat) : List Nat :=
  if k = 0 then [48] else (natDigitsRev k).reverse

/-- Python's `int(s)` on an all-digit string: the usual decimal left fold. -/
def parseDec (l : List Nat) : Nat :=
  l.foldl (fun a d => a * 10 + (d - 48)) 0

/-- Python's `str.isdigit` restricted to the ASCII strings this component
produces: non-empty and all characters in `'0'..'9'`. -/
def isDigits (l : List Nat) : Bool :=
  !l.isEmpty && l.all (fun d => decide (48 ≤ d ∧ d ≤ 57))

/-- ASCII lowercasing of one character code, the effect of Python's
`str.lower` on the single characters compared here. -/
def lowerByte (d : Nat) : Nat :=
  if 65 ≤ d ∧ d ≤ 90 then d + 32 else d

/-- Python's `str.lower` over an ASCII-coded string. -/
def lowerStr (l : List Nat) : List Nat :=
  l.map lowerByte

/-- The `choices` list built in `_simplified_approval` (console.py lines
431-436): `[""] + [str(i) for i in range(1, len(commits) + 1)] + ["c", "C"]`. -/
def promptChoices (n : Nat) : List (List Nat) :=
  [] :: ((List.range n).map (fun i => pyStr (i + 1)) ++ [[99], [67]])

/-- Rich's `Prompt.ask` with a `choices` list and a `default`: it reads a
line, substitutes the default for empty input, returns the line if it is
one of the choices and otherwise re-prompts.  `none` models blocking with
no input lines left. -/
def promptAsk (choices : List (List Nat)) (dflt : List Nat) :
    List (List Nat) → Option (List Nat × List (List Nat))
  | [] => none
  | line :: rest =>
    let eff := if line = [] then dflt else line
    if eff ∈ choices then some (eff, rest) else promptAsk choices dflt rest

/-- The `(action, index)` values returned by `_simplified_approval`:
`("approve", -1)`, `("cancel", -1)` and `("edit", k - 1)`. -/
inductive ApprovalRes where
  | approve : ApprovalRes
  | cancel : ApprovalRes
  | edit : Nat → ApprovalRes
deriving DecidableEq, Repr

/-- The `while True` loop of `_simplified_approval` (console.py lines
430-445) over `n = len(commits)` proposals, reading whole input lines.
In source order: `choice == ""` returns `("approve", -1)`;
`choice.lower() == "c"` returns `("cancel", -1)`; `choice.isdigit() and
1 <= int(choice) <= len(commits)` returns `("edit", int(choice) - 1)`;
anything else prints an error and re-prompts (unreachable, since
`Prompt.ask` only returns members of `choices`).  Fueled by the number of
loop iterations. -/
def simplified_approval : Nat → Nat → List (List Nat) → Option ApprovalRes
  | 0, _, _ => none
  | fuel + 1, n, lines =>
    match promptAsk (promptChoices n) [] lines with
    | none => none
    | some (choice, rest) =>
      if choice = [] then some .approve
      else if lowerStr choice = [99] then some .cancel
      else if isDigits choice ∧ 1 ≤ parseDec choice ∧ parseDec choice ≤ n then
        some (.edit (parseDec choice - 1))
      else simplified_approval fuel n rest

/-- The capability dispatch at the top of
`interactive_atomic_commits_approval` (console.py lines 314-321): if the
`termios.tcgetattr` probe fails, `_simplified_approval` is invoked on line
input; otherwise the raw-mode Browse loop runs on the byte stream. -/
def approval_entry (raw_supported : Bool) (n start : Nat) (keys : List Nat)
    (lines : List (List Nat)) (fuel : Nat) :
    Sum (BrowseRes × List Nat) (Option ApprovalRes) :=
  if raw_supported then .inl (browseRun n keys start)
  else .inr (simplified_approval fuel n lines)

example : pyStr 12 = [49, 50] := by decide
example : parseDec (pyStr 12) = 12 := by decide
example : simplified_approval 1 3 [[50]] = some (.edit 1) := by decide
example : simplified_approval 1 3 [[]] = some .approve := by decide
example : simplified_approval 1 3 [[67]] = some .cancel := by decide
example : simplified_approval 2 3 [[120], [99]] = some .cancel := by decide

/-- Folding the decimal digits (least significant first) back into a value
recovers the number. -/
lemma natDigitsRevAux_foldr :
    ∀ (fuel m : Nat), m ≤ fuel →
      (natDigitsRevAux fuel m).foldr (fun d a => a * 10 + (d - 48)) 0 = m := by
  intro fuel
  induction fuel with
  | zero => intro m h; simp [natDigitsRevAux]; omega
  | succ fuel ih =>
    intro m h
    cases m with
    | zero => simp [natDigitsRevAux]
    | succ m =>
      have hdiv : (m + 1) / 10 ≤ fuel := by
        have := Nat.div_lt_self (by omega : 0 < m + 1) (by omega : 1 < 10)
        omega
      simp only [natDigitsRevAux, List.foldr_cons]
      rw [ih ((m + 1) / 10) hdiv]
      have := Nat.div_add_mod (m + 1) 10
      omega

/-- Every character of the digit expansion is an ASCII digit. -/
lemma natDigitsRevAux_digits :
    ∀ (fuel m d : Nat), d ∈ natDigitsRevAux fuel m → 48 ≤ d ∧ d ≤ 57 := by
  intro fuel
  induction fuel with
  | zero => intro m d h; simp [natDigitsRevAux] at h
  | succ fuel ih =>
    intro m d h
    cases m with
    | zero => simp [natDigitsRevAux] at h
    | succ m =>
      simp only [natDigitsRevAux, List.mem_cons] at h
      rcases h with h | h
      · have := Nat.mod_lt (m + 1) (by omega : 0 < 10)
        omega
      · exact ih ((m + 1) / 10) d h

/-- Every character of `str(k)` is an ASCII digit. -/
lemma pyStr_digits (k d : Nat) (h : d ∈ pyStr k) : 48 ≤ d ∧ d ≤ 57 := by
  unfold pyStr at h
  by_cases hk : k = 0
  · rw [if_pos hk] at h
    simp at h
    omega
  · rw [if_neg hk] at h
    rw [List.mem_reverse] at h
    exact natDigitsRevAux_digits k k d h

/-- The string `str(k)` is never empty. -/
lemma pyStr_ne_nil (k : Nat) : pyStr k ≠ [] := by
  unfold pyStr
  by_cases hk : k = 0
  · simp [hk]
  · rw [if_neg hk]
    obtain ⟨m, rfl⟩ := Nat.exists_eq_succ_of_ne_zero hk
    simp [natDigitsRev, natDigitsRevAux]

/-- Python's `int(str(k)) == k` for positive `k`. -/
lemma parseDec_pyStr (k : Nat) (hk : 1 ≤ k) : parseDec (pyStr k) = k := by
  unfold parseDec pyStr
  rw [if_neg (by omega : ¬k = 0), List.foldl_reverse]
  exact natDigitsRevAux_foldr k k (le_refl k)

/-- Lowercasing leaves a digit string unchanged. -/
lemma lowerStr_pyStr (k : Nat) : lowerStr (pyStr k) = pyStr k := by
  unfold lowerStr
  have h := pyStr_digits k
  calc (pyStr k).map lowerByte = (pyStr k).map id := by
        apply List.map_congr_left
        intro d hd
        obtain ⟨h1, h2⟩ := h d hd
        simp only [lowerByte, id]
        rw [if_neg (by omega)]
    _ = pyStr k := List.map_id _

/-- The string `str(k)` does not lowercase to `"c"`. -/
lemma lowerStr_pyStr_ne_c (k : Nat) : ¬ lowerStr (pyStr k) = [99] := by
  rw [lowerStr_pyStr]
  intro h
  have hmem : (99 : Nat) ∈ pyStr k := by rw [h]; simp
  have := pyStr_digits k 99 hmem
  omega

/-- The string `str(k)` passes Python's `isdigit` test. -/
lemma isDigits_pyStr (k : Nat) : isDigits (pyStr k) = true := by
  unfold isDigits
  rw [Bool.and_eq_true]
  constructor
  · rw [Bool.not_eq_true', List.isEmpty_eq_false_iff_exists_mem]
    obtain ⟨d, ds, hds⟩ := List.exists_cons_of_ne_nil (pyStr_ne_nil k)
    exact ⟨d, by rw [hds]; simp⟩
  · rw [List.all_eq_true]
    intro d hd
    exact decide_eq_true (pyStr_digits k d hd)

/-- For `1 ≤ k ≤ n`, `str(k)` is one of the prompt's choices. -/
lemma pyStr_mem_promptChoices (n k : Nat) (h1 : 1 ≤ k) (h2 : k ≤ n) :
    pyStr k ∈ promptChoices n := by
  have hmap : pyStr k ∈ (List.range n).map (fun i => pyStr (i + 1)) := by
    refine List.mem_map.mpr ⟨k - 1, List.mem_range.mpr (by omega), ?_⟩
    congr 1
    omega
  exact List.mem_cons_of_mem _ (List.mem_append_left _ hmap)

/-- Out-of-range `set` leaves a list unchanged. -/
lemma set_oob {α : Type} : ∀ (l : List α) (i : Nat) (a : α), l.length ≤ i → l.set i a = l := by
  intro l
  induction l with
  | nil => intro i a _; rfl
  | cons x xs ih =>
    intro i a h
    cases i with
    | zero => simp at h
    | succ j => simp only [List.set]; rw [ih j a (by simpa using h)]

/-- When the inline editor returns, the caller applies its result. -/
lemma handleEditRound_returned (commits : List Proposal) (i : Nat) (keys : List Nat)
    (r : Option (List Nat)) (rest : List Nat)
    (h : inline_edit_commit_message commits i keys = (.returned r, rest)) :
    handleEditRound commits i keys = applyEdit commits i r := by
  unfold handleEditRound
  rw [h]

/-- C1: in Edit mode with the buffer pre-filled with the selected
proposal's message and the cursor at its end, typing `k` printable
characters `cs`, pressing Backspace `j ≤ k` times, then Enter, leaves the
proposal's message equal to the pre-filled text followed by the first
`k - j` typed characters (when `j = k` the commit is skipped as unchanged,
with the same resulting message). -/
theorem c1_type_backspace_enter (commits : List Proposal) (i : Nat) (cs : List Nat)
    (j : Nat) (rest : List Nat)
    (hi : i < commits.length)
    (hcs : ∀ c ∈ cs, 32 ≤ c ∧ c ≠ 127)
    (hj : j ≤ cs.length) :
    ((handleEditRound commits i (cs ++ List.replicate j 127 ++ 13 :: rest)).getD i default).message
      = (commits.getD i default).message ++ cs.take (cs.length - j) := by
  set m := (commits.getD i default).message with hmdef
  have h1 := inlineEditRun_printables (List.replicate j 127 ++ 13 :: rest) m cs hcs m
  have hjm : j ≤ (m ++ cs).length := by rw [List.length_append]; omega
  have h2 := inlineEditRun_backspaces (13 :: rest) m j (m ++ cs) hjm
  have h3 : inlineEditRun (13 :: rest) m ((m ++ cs).take ((m ++ cs).length - j))
        ((m ++ cs).length - j)
      = (.returned (if (m ++ cs).take ((m ++ cs).length - j) ≠ m
            then some ((m ++ cs).take ((m ++ cs).length - j)) else none), rest) := by
    simp [inlineEditRun]
  have hB : (m ++ cs).take ((m ++ cs).length - j) = m ++ cs.take (cs.length - j) := by
    rw [List.length_append]
    rw [show m.length + cs.length - j = m.length + (cs.length - j) from by omega]
    rw [List.take_append_eq_append_take]
    rw [List.take_of_length_le (by omega : m.length ≤ m.length + (cs.length - j))]
    rw [show m.length + (cs.length - j) - m.length = cs.length - j from by omega]
  have hrun := h1.trans (h2.trans h3)
  rw [hB] at hrun
  have hrun2 : inline_edit_commit_message commits i (cs ++ List.replicate j 127 ++ 13 :: rest)
      = (.returned (if m ++ cs.take (cs.length - j) ≠ m
            then some (m ++ cs.take (cs.length - j)) else none), rest) := by
    simp only [inline_edit_commit_message]
    rw [← hmdef, List.append_assoc]
    exact hrun
  rw [handleEditRound_returned commits i _ _ rest hrun2]
  have hlent : (cs.take (cs.length - j)).length = cs.length - j := by
    rw [List.length_take]; omega
  by_cases ht : cs.length - j = 0
  · rw [ht]
    have hnone : (if m ++ cs.take 0 ≠ m then some (m ++ cs.take 0) else none)
        = (none : Option (List Nat)) := by simp
    rw [hnone]
    rw [show applyEdit commits i none = commits from rfl]
    rw [← hmdef]
    simp
  · have hne : m ++ cs.take (cs.length - j) ≠ m := by
      intro heq
      have := congrArg List.length heq
      rw [List.length_append, hlent] at this
      omega
    have hnil : m ++ cs.take (cs.length - j) ≠ [] := by
      intro heq
      have := congrArg List.length heq
      rw [List.length_append, hlent, List.length_nil] at this
      omega
    rw [if_pos hne]
    simp only [applyEdit]
    rw [if_pos hnil]
    rw [getD_set_eq default commits i _ hi]

/-- C1 witness: message "x", type "ab", one Backspace, Enter: the message
becomes "xa". -/
theorem c1_witness :
    ((handleEditRound [⟨[97], [120]⟩] 0 ([97, 98] ++ List.replicate 1 127 ++ 13 :: [])).getD 0
          default).message
      = (([⟨[97], [120]⟩] : List Proposal).getD 0 default).message
          ++ [97, 98].take ([97, 98].length - 1) :=
  c1_type_backspace_enter [⟨[97], [120]⟩] 0 [97, 98] 1 [] (by decide) (by decide) (by decide)

/-- C2: whatever was typed first, an edit that reaches an Escape byte
(followed, as the code demands, by one more byte) returns `None`: the
proposals list is byte-for-byte unchanged and nothing is committed, and
the caller's loop re-enters Browse. -/
theorem c2_escape_discards_edit (commits : List Proposal) (i : Nat) (pre : List Nat)
    (b : Nat) (rest : List Nat) (buf : List Nat) (pos : Nat)
    (hpre : inline_edit_commit_message commits i pre = (.pending buf pos, [])) :
    inline_edit_commit_message commits i (pre ++ 27 :: b :: rest) = (.returned none, rest)
      ∧ handleEditRound commits i (pre ++ 27 :: b :: rest) = commits := by
  simp only [inline_edit_commit_message] at hpre
  have h2 := inlineEditRun_append (27 :: b :: rest) ((commits.getD i default).message) pre
    ((commits.getD i default).message) ((commits.getD i default).message).length buf pos hpre
  have h3 : inlineEditRun (27 :: b :: rest) ((commits.getD i default).message) buf pos
      = (.returned none, rest) := by
    simp [inlineEditRun]
  have hfull : inline_edit_commit_message commits i (pre ++ 27 :: b :: rest)
      = (.returned none, rest) := by
    simp only [inline_edit_commit_message]
    rw [h2, h3]
  exact ⟨hfull, by rw [handleEditRound_returned commits i _ none rest hfull]; rfl⟩

/-- C2 witness: message "m", type "a" then Escape followed by one byte:
nothing is committed and the proposal list is unchanged. -/
theorem c2_witness :
    inline_edit_commit_message [⟨[97], [109]⟩] 0 ([97] ++ 27 :: 91 :: []) = (.returned none, [])
      ∧ handleEditRound [⟨[97], [109]⟩] 0 ([97] ++ 27 :: 91 :: []) = [⟨[97], [109]⟩] :=
  c2_escape_discards_edit [⟨[97], [109]⟩] 0 [97] 91 [] [109, 97] 2 (by decide)

/-- C6: committing an edit (Enter) whose buffer at that moment equals the
entry's original message returns `None` and leaves the proposals list
exactly as it was: the caller cannot distinguish it from no edit. -/
theorem c6_unchanged_commit_is_noop (commits : List Proposal) (i : Nat) (pre : List Nat)
    (rest : List Nat) (pos : Nat)
    (hpre : inline_edit_commit_message commits i pre
      = (.pending ((commits.getD i default).message) pos, [])) :
    inline_edit_commit_message commits i (pre ++ 13 :: rest) = (.returned none, rest)
      ∧ handleEditRound commits i (pre ++ 13 :: rest) = commits := by
  simp only [inline_edit_commit_message] at hpre
  have h2 := inlineEditRun_append (13 :: rest) ((commits.getD i default).message) pre
    ((commits.getD i default).message) ((commits.getD i default).message).length
    ((commits.getD i default).message) pos hpre
  have h3 : inlineEditRun (13 :: rest) ((commits.getD i default).message)
        ((commits.getD i default).message) pos
      = (.returned none, rest) := by
    simp [inlineEditRun]
  have hfull : inline_edit_commit_message commits i (pre ++ 13 :: rest)
      = (.returned none, rest) := by
    simp only [inline_edit_commit_message]
    rw [h2, h3]
  exact ⟨hfull, by rw [handleEditRound_returned commits i _ none rest hfull]; rfl⟩

/-- C6 witness: message "m", type "a" then Backspace (restoring "m"), then
Enter: the commit is a no-op. -/
theorem c6_witness :
    inline_edit_commit_message [⟨[97], [109]⟩] 0 ([97, 127] ++ 13 :: []) = (.returned none, [])
      ∧ handleEditRound [⟨[97], [109]⟩] 0 ([97, 127] ++ 13 :: []) = [⟨[97], [109]⟩] :=
  c6_unchanged_commit_is_noop [⟨[97], [109]⟩] 0 [97, 127] [] 1 (by decide)

/-- C3: starting in Browse at a valid `selected_index`, any sequence of
ArrowUp/ArrowDown events keeps `selected_index` inside `[0, n-1]` (at every
prefix), each single arrow key changes it by at most 1, ArrowUp does
`max(0, i-1)` and ArrowDown does `min(n-1, i+1)`, and the Browse loop on
exactly those bytes is left at the folded index. -/
theorem c3_navigation_clamped (n i t j : Nat) (d : Arrow) (ds : List Arrow)
    (hi : i < n) (hj : j < n) :
    navFold n i (ds.take t) < n
      ∧ navFold n i ds < n
      ∧ j - 1 ≤ navStep n j d ∧ navStep n j d ≤ j + 1
      ∧ navStep n j Arrow.up = j - 1
      ∧ navStep n j Arrow.down = min (n - 1) (j + 1)
      ∧ browseRun n (encodeArrows ds) i = (.blocked (navFold n i ds), []) := by
  refine ⟨navFold_lt n (ds.take t) i hi, navFold_lt n ds i hi, ?_, ?_, rfl, rfl, ?_⟩
  · cases d with
    | up => simp [navStep]
    | down => simp [navStep]; omega
  · cases d with
    | up => simp [navStep]; omega
    | down => simp [navStep]
  · have h := browseRun_arrows n ds i []
    rw [List.append_nil] at h
    rw [h]
    rfl

/-- C3 witness at n = 2, i = 0, with the arrow sequence Down, Down, Up. -/
theorem c3_witness :
    navFold 2 0 ([Arrow.down, Arrow.down, Arrow.up].take 2) < 2
      ∧ navFold 2 0 [Arrow.down, Arrow.down, Arrow.up] < 2
      ∧ 1 - 1 ≤ navStep 2 1 Arrow.up ∧ navStep 2 1 Arrow.up ≤ 1 + 1
      ∧ navStep 2 1 Arrow.up = 1 - 1
      ∧ navStep 2 1 Arrow.down = min (2 - 1) (1 + 1)
      ∧ browseRun 2 (encodeArrows [Arrow.down, Arrow.down, Arrow.up]) 0
          = (.blocked (navFold 2 0 [Arrow.down, Arrow.down, Arrow.up]), []) :=
  c3_navigation_clamped 2 0 2 1 Arrow.up [Arrow.down, Arrow.down, Arrow.up]
    (by decide) (by decide)

/-- C4: when Browse returns `("edit", i)` and the inline editor then
returns, the session loop continues in Browse with `current_index = i`,
the exact `selected_index` at which Edit mode was entered; since this
unfolding holds at every round, it holds across any number of consecutive
edit round-trips. -/
theorem c4_selected_index_preserved (fuel : Nat) (commits : List Proposal)
    (start i : Nat) (keys rest rest2 : List Nat) (r : Option (List Nat))
    (hb : browseRun commits.length keys start = (.edit i, rest))
    (hi : i < commits.length)
    (he : inline_edit_commit_message commits i rest = (.returned r, rest2)) :
    sessionRun (fuel + 1) commits start keys
      = sessionRun fuel (applyEdit commits i r) i rest2 := by
  simp only [sessionRun]
  rw [hb]
  simp only [if_pos hi]
  rw [he]

/-- C4 witness: one proposal, Enter then CtrlC: the session re-enters
Browse at index 0 where the edit was entered. -/
theorem c4_witness :
    sessionRun 1 [⟨[97], [120]⟩] 0 [13, 3]
      = sessionRun 0 (applyEdit [⟨[97], [120]⟩] 0 none) 0 [] :=
  c4_selected_index_preserved 0 [⟨[97], [120]⟩] 0 0 [13, 3] [3] [] none
    (by decide) (by decide) (by decide)

/-- C8 counterexample: with one proposal and the byte stream Enter, CtrlC,
Tab, Enter, the CtrlC (0x03) is received in Edit mode, yet the session does
not resolve to Cancel: the edit is merely discarded, the loop re-enters
Browse, and the subsequent Tab+Enter approves everything. -/
theorem c8_counterexample :
    sessionRun 2 [⟨[97], [120]⟩] 0 [13, 3, 9, 13] = .approved [⟨[97], [120]⟩]
      ∧ sessionRun 2 [⟨[97], [120]⟩] 0 [13, 3, 9, 13] ≠ .cancelled := by
  decide

/-- C8 amended: a CtrlC byte (0x03, and likewise a KeyboardInterrupt
caught by the surrounding handlers) in Browse mode resolves the session to
Cancel; in Edit mode it only cancels the in-progress edit (the editor
returns `None`), leaving the proposals unchanged, after which the session
re-enters Browse.  Both read loops catch it, so it never escapes as an
unhandled exception (every branch of the model yields a value). -/
theorem c8_ctrlc_amended (fuel n i start : Nat) (rest : List Nat)
    (commits : List Proposal) (cur buf : List Nat) (pos idx : Nat) :
    browseRun n (3 :: rest) i = (.cancel, rest)
      ∧ sessionRun (fuel + 1) commits start (3 :: rest) = .cancelled
      ∧ inlineEditRun (3 :: rest) cur buf pos = (.returned none, rest)
      ∧ applyEdit commits idx none = commits := by
  refine ⟨?_, ?_, ?_, rfl⟩
  · unfold browseRun
    norm_num
  · simp only [sessionRun]
    have hb : browseRun commits.length (3 :: rest) start = (.cancel, rest) := by
      unfold browseRun
      norm_num
    rw [hb]
  · simp [inlineEditRun]

/-- C9 counterexample: in Edit mode on the message "m", the unknown escape
sequence ESC `[` is not discarded with the session state unchanged: the
edit routine returns `None` (leaving Edit mode), unlike the run with no
input, which stays pending in Edit with buffer "m" and cursor 1. -/
theorem c9_counterexample :
    (inline_edit_commit_message [⟨[102], [109]⟩] 0 [27, 91]).1 = .returned none
      ∧ (inline_edit_commit_message [⟨[102], [109]⟩] 0 []).1 = .pending [109] 1
      ∧ (EditEnd.returned none ≠ EditEnd.pending [109] 1) := by
  decide

/-- C9 amended: in Browse mode an escape sequence that is neither `ESC [ A`
nor `ESC [ B` is consumed and discarded without changing `selected_index`
or any other state; in Edit mode an escape byte followed by any byte
cancels the in-progress edit (the routine returns `None`), leaving the
proposals unchanged. -/
theorem c9_escape_amended (n a b : Nat) (i : Nat) (rest : List Nat)
    (cur buf : List Nat) (pos b2 : Nat) (rest2 : List Nat)
    (commits : List Proposal) (idx : Nat)
    (h1 : ¬(a = 91 ∧ b = 65)) (h2 : ¬(a = 91 ∧ b = 66)) :
    browseRun n (27 :: a :: b :: rest) i = browseRun n rest i
      ∧ inlineEditRun (27 :: b2 :: rest2) cur buf pos = (.returned none, rest2)
      ∧ applyEdit commits idx none = commits :=
  ⟨browseStep_escOther n a b rest i h1 h2, by simp [inlineEditRun], rfl⟩

/-- C9 amended witness: the unknown Browse sequence ESC `[` `C` and the
Edit-mode sequence ESC `[`. -/
theorem c9_witness :
    browseRun 2 (27 :: 91 :: 67 :: [13]) 0 = browseRun 2 [13] 0
      ∧ inlineEditRun (27 :: 91 :: [65]) [109] [109] 1 = (.returned none, [65])
      ∧ applyEdit [⟨[102], [109]⟩] 0 none = [⟨[102], [109]⟩] :=
  c9_escape_amended 2 91 67 0 [13] [109] [109] 1 91 [65] [⟨[102], [109]⟩] 0
    (by decide) (by decide)

/-- C5: editing the non-empty message "x" down to the empty buffer and
pressing Enter makes the edit routine return the empty string (a committed
empty edit), but the caller's `if new_message:` treats the empty string as
falsy, so the proposal keeps its original message instead of becoming
empty — the code drops the legal empty edit the spec promises to pass
through. -/
theorem c5_empty_edit_dropped :
    (inline_edit_commit_message [⟨[97], [120]⟩] 0 [127, 13]).1 = .returned (some [])
      ∧ handleEditRound [⟨[97], [120]⟩] 0 [127, 13] = [⟨[97], [120]⟩]
      ∧ ((handleEditRound [⟨[97], [120]⟩] 0 [127, 13]).getD 0 default).message = [120]
      ∧ ([120] : List Nat) ≠ [] := by
  decide

/-- Applying an edit result never touches entries other than the edited
index. -/
lemma applyEdit_getD_ne (commits : List Proposal) (i j : Nat) (r : Option (List Nat))
    (h : i ≠ j) : (applyEdit commits i r).getD j default = commits.getD j default := by
  cases r with
  | none => rfl
  | some m =>
    simp only [applyEdit]
    by_cases hm : m ≠ []
    · rw [if_pos hm]
      exact getD_set_ne default commits i j _ h
    · rw [if_neg hm]

/-- Applying an edit result never changes the edited entry's file path. -/
lemma applyEdit_file_path (commits : List Proposal) (i : Nat) (r : Option (List Nat)) :
    ((applyEdit commits i r).getD i default).file_path
      = (commits.getD i default).file_path := by
  cases r with
  | none => rfl
  | some m =>
    simp only [applyEdit]
    by_cases hm : m ≠ []
    · rw [if_pos hm]
      by_cases hi : i < commits.length
      · rw [getD_set_eq default commits i _ hi]
      · rw [set_oob commits i _ (by omega)]
    · rw [if_neg hm]

/-- An edit round that did not return a committed message leaves the list
untouched. -/
lemma handleEditRound_not_returned (commits : List Proposal) (i : Nat) (keys : List Nat)
    (h : ∀ m, (inline_edit_commit_message commits i keys).1 ≠ .returned (some m)) :
    handleEditRound commits i keys = commits := by
  unfold handleEditRound
  rcases hE : inline_edit_commit_message commits i keys with ⟨e, rem⟩
  cases e with
  | returned r =>
    cases r with
    | none => rfl
    | some m =>
      exfalso
      exact h m (by rw [hE])
  | pending b p => rfl
  | pendingEsc b p => rfl

/-- C10: the inline edit routine itself never rewrites any proposal: other
entries are untouched, the edited entry keeps its file path, the list can
only change when the routine returns a non-None message (the caller alone
rewrites it), and the display list used while editing is a copy that
agrees with the proposals everywhere except the edited row's message
cell. -/
theorem c10_edit_routine_frame (commits : List Proposal) (i j : Nat) (keys : List Nat)
    (buf : List Nat) (pos : Nat) (hj : j ≠ i) :
    (handleEditRound commits i keys).getD j default = commits.getD j default
      ∧ ((handleEditRound commits i keys).getD i default).file_path
          = (commits.getD i default).file_path
      ∧ (handleEditRound commits i keys ≠ commits
          → ∃ m, (inline_edit_commit_message commits i keys).1 = .returned (some m))
      ∧ (display_commits commits i buf pos).getD j default = commits.getD j default
      ∧ ((display_commits commits i buf pos).getD i default).file_path
          = (commits.getD i default).file_path
      ∧ (display_commits commits i buf pos).length = commits.length := by
  have hH : ∀ r rem, inline_edit_commit_message commits i keys = (.returned r, rem)
      → handleEditRound commits i keys = applyEdit commits i r := by
    intro r rem h
    exact handleEditRound_returned commits i keys r rem h
  refine ⟨?_, ?_, ?_, ?_, ?_, ?_⟩
  · rcases hE : inline_edit_commit_message commits i keys with ⟨e, rem⟩
    cases e with
    | returned r =>
      rw [hH r rem hE]
      exact applyEdit_getD_ne commits i j r (by omega)
    | pending b p => rw [show handleEditRound commits i keys = commits from by
        unfold handleEditRound; rw [hE]]
    | pendingEsc b p => rw [show handleEditRound commits i keys = commits from by
        unfold handleEditRound; rw [hE]]
  · rcases hE : inline_edit_commit_message commits i keys with ⟨e, rem⟩
    cases e with
    | returned r =>
      rw [hH r rem hE]
      exact applyEdit_file_path commits i r
    | pending b p => rw [show handleEditRound commits i keys = commits from by
        unfold handleEditRound; rw [hE]]
    | pendingEsc b p => rw [show handleEditRound commits i keys = commits from by
        unfold handleEditRound; rw [hE]]
  · intro hneq
    by_contra hnone
    push_neg at hnone
    exact hneq (handleEditRound_not_returned commits i keys hnone)
  · exact getD_set_ne default commits i j _ (by omega)
  · by_cases hi : i < commits.length
    · unfold display_commits
      rw [getD_set_eq default commits i _ hi]
    · unfold display_commits
      rw [set_oob commits i _ (by omega)]
  · simp [display_commits]

/-- C10 witness at a two-entry list, editing index 0 and reading index 1,
with the CtrlC byte as the key stream. -/
theorem c10_witness :
    (handleEditRound [⟨[97], [120]⟩, ⟨[98], [121]⟩] 0 [3]).getD 1 default
        = ([⟨[97], [120]⟩, ⟨[98], [121]⟩] : List Proposal).getD 1 default
      ∧ ((handleEditRound [⟨[97], [120]⟩, ⟨[98], [121]⟩] 0 [3]).getD 0 default).file_path
          = (([⟨[97], [120]⟩, ⟨[98], [121]⟩] : List Proposal).getD 0 default).file_path
      ∧ (handleEditRound [⟨[97], [120]⟩, ⟨[98], [121]⟩] 0 [3] ≠ [⟨[97], [120]⟩, ⟨[98], [121]⟩]
          → ∃ m, (inline_edit_commit_message [⟨[97], [120]⟩, ⟨[98], [121]⟩] 0 [3]).1
              = .returned (some m))
      ∧ (display_commits [⟨[97], [120]⟩, ⟨[98], [121]⟩] 0 [120] 1).getD 1 default
          = ([⟨[97], [120]⟩, ⟨[98], [121]⟩] : List Proposal).getD 1 default
      ∧ ((display_commits [⟨[97], [120]⟩, ⟨[98], [121]⟩] 0 [120] 1).getD 0 default).file_path
          = (([⟨[97], [120]⟩, ⟨[98], [121]⟩] : List Proposal).getD 0 default).file_path
      ∧ (display_commits [⟨[97], [120]⟩, ⟨[98], [121]⟩] 0 [120] 1).length
          = ([⟨[97], [120]⟩, ⟨[98], [121]⟩] : List Proposal).length :=
  c10_edit_routine_frame [⟨[97], [120]⟩, ⟨[98], [121]⟩] 0 1 [3] [120] 1 (by decide)

/-- C7: when the raw-mode probe fails the fallback flow runs, and it maps
line input as follows, for any proposal count `n`: empty input approves
everything; the string `str(k)` for `1 ≤ k ≤ n` starts an edit of entry
`k - 1`; `"c"` and `"C"` cancel; any other input re-prompts without
changing anything. -/
theorem c7_fallback_mapping (n k fuel start : Nat) (keys : List Nat)
    (rest1 rest2 rest3 rest4 : List (List Nat)) (line : List Nat) (lines : List (List Nat))
    (hk1 : 1 ≤ k) (hk2 : k ≤ n)
    (hline1 : line ∉ promptChoices n) (hline2 : line ≠ []) :
    simplified_approval (fuel + 1) n ([] :: rest1) = some .approve
      ∧ simplified_approval (fuel + 1) n (pyStr k :: rest2) = some (.edit (k - 1))
      ∧ simplified_approval (fuel + 1) n ([99] :: rest3) = some .cancel
      ∧ simplified_approval (fuel + 1) n ([67] :: rest4) = some .cancel
      ∧ simplified_approval (fuel + 1) n (line :: lines)
          = simplified_approval (fuel + 1) n lines
      ∧ approval_entry false n start keys lines fuel
          = .inr (simplified_approval fuel n lines) := by
  have hne := pyStr_ne_nil k
  have hmem := pyStr_mem_promptChoices n k hk1 hk2
  refine ⟨?_, ?_, ?_, ?_, ?_, ?_⟩
  · simp [simplified_approval, promptAsk, promptChoices]
  · have hask : promptAsk (promptChoices n) [] (pyStr k :: rest2) = some (pyStr k, rest2) := by
      simp only [promptAsk]
      rw [if_neg hne, if_pos hmem]
    have hstep : simplified_approval (fuel + 1) n (pyStr k :: rest2)
        = if pyStr k = [] then some .approve
          else if lowerStr (pyStr k) = [99] then some .cancel
          else if isDigits (pyStr k) ∧ 1 ≤ parseDec (pyStr k) ∧ parseDec (pyStr k) ≤ n then
            some (.edit (parseDec (pyStr k) - 1))
          else simplified_approval fuel n rest2 := by
      simp only [simplified_approval]
      rw [hask]
    rw [hstep, if_neg hne, if_neg (lowerStr_pyStr_ne_c k),
      if_pos ⟨isDigits_pyStr k, by rw [parseDec_pyStr k hk1]; exact hk1,
        by rw [parseDec_pyStr k hk1]; exact hk2⟩]
    rw [parseDec_pyStr k hk1]
  · have hask : promptAsk (promptChoices n) [] ([99] :: rest3) = some ([99], rest3) := by
      simp only [promptAsk]
      rw [if_neg (by decide : ¬([99] : List Nat) = [])]
      rw [if_pos (by simp [promptChoices] : ([99] : List Nat) ∈ promptChoices n)]
    have hstep : simplified_approval (fuel + 1) n ([99] :: rest3)
        = if ([99] : List Nat) = [] then some .approve
          else if lowerStr [99] = [99] then some .cancel
          else if isDigits [99] ∧ 1 ≤ parseDec [99] ∧ parseDec [99] ≤ n then
            some (.edit (parseDec [99] - 1))
          else simplified_approval fuel n rest3 := by
      simp only [simplified_approval]
      rw [hask]
    rw [hstep, if_neg (by decide : ¬([99] : List Nat) = []),
      if_pos (by decide : lowerStr [99] = [99])]
  · have hask : promptAsk (promptChoices n) [] ([67] :: rest4) = some ([67], rest4) := by
      simp only [promptAsk]
      rw [if_neg (by decide : ¬([67] : List Nat) = [])]
      rw [if_pos (by simp [promptChoices] : ([67] : List Nat) ∈ promptChoices n)]
    have hstep : simplified_approval (fuel + 1) n ([67] :: rest4)
        = if ([67] : List Nat) = [] then some .approve
          else if lowerStr [67] = [99] then some .cancel
          else if isDigits [67] ∧ 1 ≤ parseDec [67] ∧ parseDec [67] ≤ n then
            some (.edit (parseDec [67] - 1))
          else simplified_approval fuel n rest4 := by
      simp only [simplified_approval]
      rw [hask]
    rw [hstep, if_neg (by decide : ¬([67] : List Nat) = []),
      if_pos (by decide : lowerStr [67] = [99])]
  · have hask : promptAsk (promptChoices n) [] (line :: lines)
        = promptAsk (promptChoices n) [] lines := by
      simp only [promptAsk]
      rw [if_neg hline2, if_neg hline1]
    simp only [simplified_approval]
    rw [hask]
  · rfl

/-- C7 witness at n = 2: the inputs "", "2", "c", "C" and the invalid
line "x". -/
theorem c7_witness :
    simplified_approval 2 2 ([] :: []) = some .approve
      ∧ simplified_approval 2 2 (pyStr 2 :: []) = some (.edit (2 - 1))
      ∧ simplified_approval 2 2 ([99] :: []) = some .cancel
      ∧ simplified_approval 2 2 ([67] :: []) = some .cancel
      ∧ simplified_approval 2 2 ([120] :: [[]]) = simplified_approval 2 2 [[]]
      ∧ approval_entry false 2 0 [] [[]] 1 = .inr (simplified_approval 1 2 [[]]) :=
  c7_fallback_mapping 2 2 1 0 [] [] [] [] [] [120] [[]]
    (by decide) (by decide) (by decide) (by decide)
